import Mathlib

set_option maxHeartbeats 1000000

/-!
Shallow embedding of the conversion-tools repository (C sources under src/)
and verification of its specification claims.

Bytes and characters are modelled as `Nat` (a C `unsigned char` is a value
below 256, a C `uint32_t` value is reduced modulo 2^32 where it can wrap,
a C `unsigned long long` modulo 2^64).  Streams are `List Nat`.  Fallible
C functions (nonzero result codes, early `return` on error) become
`Option`.  Output written with `fputc`/`fwrite` is collected in the
returned list; diagnostics printed to stderr are not part of the model.
-/

/-- C `isspace` in the C locale: space, \t, \n, \v, \f, \r
(used by base85.c and dna.c). -/
def isspace (c : Nat) : Bool :=
  decide (c = 32 ∨ (9 ≤ c ∧ c ≤ 13))

/-- Grouping of the input byte stream into non-overlapping chunks of up to
4 bytes, the final chunk possibly short: the read pattern of
`fread(buffer, 1, 4, input)` in ascii85.c and of the 4-byte stepping over
the read buffer in base85.c (for stream/file input the chunks of both
tools coincide with this grouping). -/
def toGroups : List Nat → List (List Nat)
  | [] => []
  | a :: b :: c :: d :: rest => [a, b, c, d] :: toGroups rest
  | l => [l]

/-- Big-endian packing of up to 4 bytes into a 32-bit value, zero-padding
absent bytes: `for i in 0..3: value = (value << 8) | (i < len ? input[i] : 0)`.
Input bytes are C `unsigned char` (< 256), so the `uint32_t` accumulator
cannot wrap. -/
def pack4 (input : List Nat) : Nat :=
  (List.range 4).foldl (fun v i => v * 256 + input.getD i 0) 0

/-- The base-85 digit extraction loop
`for i = k-1 downto 0: output[i] = value % 85; value /= 85`
(digit values, most significant first). -/
def encode_digits : Nat → Nat → List Nat
  | 0, _ => []
  | k + 1, v => encode_digits k (v / 85) ++ [v % 85]

/-- Big-endian unpacking of a 32-bit value into 4 bytes:
`for j = 3 downto 0: out[j] = value & 0xFF; value >>= 8`. -/
def unpack4 (v : Nat) : List Nat :=
  [v / 16777216 % 256, v / 65536 % 256, v / 256 % 256, v % 256]

namespace Ascii85

/-- ascii85.c `ascii85_chars`: the C string literal is exactly the 85
consecutive ASCII characters from '!' (33) to 'u' (117). -/
def ascii85_chars : List Nat :=
  (List.range 85).map (fun d => d + 33)

/-- ascii85.c `ascii85_decode_char`: `c - '!'` for c in '!'..'u', else -1
(modelled as `none`). -/
def ascii85_decode_char (c : Nat) : Option Nat :=
  if 33 ≤ c ∧ c ≤ 117 then some (c - 33) else none

/-- ascii85.c `encode_group` (lines 69-110): pack up to 4 bytes big-endian,
emit the marker 'z' (122) for a full all-zero group when zero-compression
is on, 'y' (121) for a full all-space group (0x20202020 = 538976288) when
space-compression is on, otherwise 5 base-85 digits mapped through the
alphabet, truncated to len+1 characters for a short group.  (The C
function additionally rejects len > 4 with an argument error; its only
caller passes fread results of 1..4 bytes.) -/
def encode_group (input : List Nat) (use_z use_y : Bool) : List Nat :=
  let value := pack4 input
  if input.length = 4 ∧ use_z = true ∧ value = 0 then [122]
  else if input.length = 4 ∧ use_y = true ∧ value = 538976288 then [121]
  else
    ((encode_digits 5 value).map (fun d => ascii85_chars.getD d 0)).take
      (if input.length = 4 then 5 else input.length + 1)

/-- ascii85.c `decode_group` lines 140-153: fold input characters into the
32-bit accumulator `value = value * 85 + digit`, first rejecting any
character outside the alphabet and then rejecting the step whenever
`value > (UINT32_MAX - digit) / 85` (the overflow check). -/
def acc_digits : List Nat → Nat → Option Nat
  | [], v => some v
  | c :: rest, v =>
    match ascii85_decode_char c with
    | none => none
    | some d =>
      if (4294967295 - d) / 85 < v then none
      else acc_digits rest (v * 85 + d)

/-- ascii85.c `decode_group` lines 155-161: for a short group pad the
accumulation with the maximum digit 84 up to 5 digits, applying the same
overflow check `value > (UINT32_MAX - 84) / 85` at each step. -/
def pad_digits : Nat → Nat → Option Nat
  | 0, v => some v
  | k + 1, v =>
    if (4294967295 - 84) / 85 < v then none
    else pad_digits k (v * 85 + 84)

/-- ascii85.c `decode_group` lines 163-168: the unpack loop
`for i = 0 to output_len-1: output[4-1-i] = value & 0xFF; value >>= 8`
writes `n` bytes at buffer positions 3 down to 4-n and leaves the other
positions of the caller-supplied 4-byte buffer unchanged. -/
def writeBytes (buf : List Nat) (v : Nat) (n : Nat) : List Nat :=
  (List.range 4).map (fun j => if 4 - n ≤ j then v / 256 ^ (3 - j) % 256 else buf.getD j 0)

/-- ascii85.c `decode_group` (lines 112-171).  The C function receives a
caller-provided 4-byte output buffer; the model threads that buffer
explicitly (`buf`) and returns the updated buffer together with
`*output_len`.  `none` models the RESULT_ERROR_ARGS / RESULT_ERROR_DECODE
returns.  The caller then emits the first `output_len` buffer bytes. -/
def decode_group (input : List Nat) (buf : List Nat) : Option (List Nat × Nat) :=
  if input.length = 0 ∨ 5 < input.length then none
  else if input = [122] then some (List.replicate 4 0, 4)
  else if input = [121] then some (List.replicate 4 32, 4)
  else if input.length < 2 then none
  else
    match acc_digits input 0 with
    | none => none
    | some v =>
      match pad_digits (5 - input.length) v with
      | none => none
      | some w => some (writeBytes buf w (input.length - 1), input.length - 1)

/-- ascii85.c `encode_ascii85` inner character loop (lines 196-215): write
one character, increment the column counter, insert a newline and reset
the counter when `wrap_cols > 0 && col_count >= wrap_cols`, and fail with
"line too long" when `col_count > MAX_LINE_LENGTH` (32768).  Returns the
emitted characters and the final column counter. -/
def emit_chars (wrap : Nat) : List Nat → Nat → Option (List Nat × Nat)
  | [], col => some ([], col)
  | c :: rest, col =>
    if 0 < wrap ∧ wrap ≤ col + 1 then
      match emit_chars wrap rest 0 with
      | none => none
      | some (o, c3) => some (c :: 10 :: o, c3)
    else if 32768 < col + 1 then none
    else
      match emit_chars wrap rest (col + 1) with
      | none => none
      | some (o, c3) => some (c :: o, c3)

/-- ascii85.c `encode_ascii85` group loop plus the final-newline rule
(lines 183-224): encode each fread group, emit its characters through the
wrap logic, and at end of stream append one newline iff
`wrap_cols == 0 || col_count > 0`. -/
def encode_groups (wrap : Nat) (uz uy : Bool) : List (List Nat) → Nat → Option (List Nat)
  | [], col => some (if wrap = 0 ∨ 0 < col then [10] else [])
  | g :: gs, col =>
    match emit_chars wrap (encode_group g uz uy) col with
    | none => none
    | some (o, col2) =>
      match encode_groups wrap uz uy gs col2 with
      | none => none
      | some o2 => some (o ++ o2)

/-- ascii85.c `encode_ascii85` (lines 173-226). -/
def encode_ascii85 (bytes : List Nat) (wrap : Nat) (uz uy : Bool) : Option (List Nat) :=
  encode_groups wrap uz uy (toGroups bytes) 0

/-- ascii85.c `decode_ascii85` character loop and end-of-stream handling
(lines 228-329).  State: remaining input, the up-to-5 character group
buffer, the persistent 4-byte `decoded` buffer (the C stack array is
passed to `decode_group` by address and keeps its previous contents
between calls), and `line_length`.  Whitespace is skipped ('\n' resetting
`line_length`); a non-whitespace character first bumps `line_length`
against MAX_LINE_LENGTH; 'z'/'y' are only legal with an empty group
buffer; alphabet characters accumulate and every 5th completes a group;
other characters are warned about and skipped.  At EOF a buffered group
of 1 character is an error, 2-4 characters are decoded as a short group. -/
def decode_ascii85_loop : List Nat → List Nat → List Nat → Nat → Option (List Nat)
  | [], cbuf, dbuf, _ =>
    if cbuf.length = 0 then some []
    else if cbuf.length < 2 then none
    else
      match decode_group cbuf dbuf with
      | none => none
      | some (dbuf2, n) => some (dbuf2.take n)
  | c :: rest, cbuf, dbuf, ll =>
    if c = 32 ∨ c = 9 ∨ c = 10 ∨ c = 13 then
      decode_ascii85_loop rest cbuf dbuf (if c = 10 then 0 else ll)
    else if 32768 < ll + 1 then none
    else if c = 122 ∨ c = 121 then
      if 0 < cbuf.length then none
      else
        match decode_group [c] dbuf with
        | none => none
        | some (dbuf2, n) =>
          match decode_ascii85_loop rest [] dbuf2 (ll + 1) with
          | none => none
          | some out => some (dbuf2.take n ++ out)
    else if (ascii85_decode_char c).isSome then
      if 5 ≤ cbuf.length then none
      else if (cbuf ++ [c]).length = 5 then
        match decode_group (cbuf ++ [c]) dbuf with
        | none => none
        | some (dbuf2, n) =>
          match decode_ascii85_loop rest [] dbuf2 (ll + 1) with
          | none => none
          | some out => some (dbuf2.take n ++ out)
      else decode_ascii85_loop rest (cbuf ++ [c]) dbuf (ll + 1)
    else decode_ascii85_loop rest cbuf dbuf (ll + 1)

/-- ascii85.c `decode_ascii85`: the group buffer starts empty and
`line_length` at 0; `dbuf` is the initial (uninitialized in C) content of
the 4-byte `decoded` buffer, threaded explicitly. -/
def decode_ascii85 (input : List Nat) (dbuf : List Nat) : Option (List Nat) :=
  decode_ascii85_loop input [] dbuf 0

/-- The raw ASCII85 character stream of an input (group encodings
concatenated, before wrap newlines), with compression markers off. -/
def rawA (bytes : List Nat) : List Nat :=
  ((toGroups bytes).map (fun g => encode_group g false false)).flatten

end Ascii85

namespace Z85

/-- base85.c `z85_alphabet` (character codes of
"0123456789abcdefghijklmnopqrstuvwxyzABCDEFGHIJKLMNOPQRSTUVWXYZ.-:+=^!/\*?&<>()[]\x7b\x7d@%$#"). -/
def z85_alphabet : List Nat :=
  [48, 49, 50, 51, 52, 53, 54, 55, 56, 57, 97, 98, 99, 100, 101, 102, 103,
   104, 105, 106, 107, 108, 109, 110, 111, 112, 113, 114, 115, 116, 117, 118, 119, 120,
   121, 122, 65, 66, 67, 68, 69, 70, 71, 72, 73, 74, 75, 76, 77, 78, 79,
   80, 81, 82, 83, 84, 85, 86, 87, 88, 89, 90, 46, 45, 58, 43, 61, 94,
   33, 47, 42, 63, 38, 60, 62, 40, 41, 91, 93, 123, 125, 64, 37, 36, 35]

/-- base85.c `z85_decoder`: the 256-entry `int8_t` lookup table, verbatim
(-1 marks an invalid character). -/
def z85_decoder_table : List Int :=
  [-1, -1, -1, -1, -1, -1, -1, -1, -1, -1, -1, -1, -1, -1, -1, -1,
   -1, -1, -1, -1, -1, -1, -1, -1, -1, -1, -1, -1, -1, -1, -1, -1,
   -1, 68, -1, 84, 83, 82, 72, -1, 75, 76, 70, 71, -1, 69, 74, 67,
   0, 1, 2, 3, 4, 5, 6, 7, 8, 9, 64, -1, 73, 66, -1, 65,
   81, 10, 11, 12, 13, 14, 15, 16, 17, 18, 19, 20, 21, 22, 23, 24,
   25, 26, 27, 28, 29, 30, 31, 32, 33, 34, 35, 77, -1, 78, 79, 80,
   -1, 36, 37, 38, 39, 40, 41, 42, 43, 44, 45, 46, 47, 48, 49, 50,
   51, 52, 53, 54, 55, 56, 57, 58, 59, 60, 61, 62, 63, -1, -1, -1,
   -1, -1, -1, -1, -1, -1, -1, -1, -1, -1, -1, -1, -1, -1, -1, -1,
   -1, -1, -1, -1, -1, -1, -1, -1, -1, -1, -1, -1, -1, -1, -1, -1,
   -1, -1, -1, -1, -1, -1, -1, -1, -1, -1, -1, -1, -1, -1, -1, -1,
   -1, -1, -1, -1, -1, -1, -1, -1, -1, -1, -1, -1, -1, -1, -1, -1,
   -1, -1, -1, -1, -1, -1, -1, -1, -1, -1, -1, -1, -1, -1, -1, -1,
   -1, -1, -1, -1, -1, -1, -1, -1, -1, -1, -1, -1, -1, -1, -1, -1,
   -1, -1, -1, -1, -1, -1, -1, -1, -1, -1, -1, -1, -1, -1, -1, -1,
   -1, -1, -1, -1, -1, -1, -1, -1, -1, -1, -1, -1, -1, -1, -1, -1]

/-- Lookup of `z85_decoder[c]`; -1 (invalid) becomes `none`. -/
def z85_decoder (c : Nat) : Option Nat :=
  match z85_decoder_table.getD c (-1) with
  | Int.ofNat n => some n
  | Int.negSucc _ => none

/-- base85.c `encode_z85` per-chunk work (lines 192-211): zero-pad the
chunk to 4 bytes, pack big-endian, extract 5 base-85 digits through
`z85_alphabet`, and keep 5 characters for a full chunk or len+1 for a
short one. -/
def z85_encode_group (g : List Nat) : List Nat :=
  ((encode_digits 5 (pack4 g)).map (fun d => z85_alphabet.getD d 0)).take
    (if g.length = 4 then 5 else g.length + 1)

/-- base85.c `encode_z85` per-character output with wrapping (lines
214-232): append the character, increment `column`, and append a newline
and reset `column` when `wrap > 0 && column >= wrap`.  Returns the emitted
characters and the final column.  (No line-length cap exists in base85.c.) -/
def z85_emit (wrap : Nat) : List Nat → Nat → (List Nat × Nat)
  | [], col => ([], col)
  | c :: rest, col =>
    if 0 < wrap ∧ wrap ≤ col + 1 then
      let r := z85_emit wrap rest 0
      (c :: 10 :: r.1, r.2)
    else
      let r := z85_emit wrap rest (col + 1)
      (c :: r.1, r.2)

/-- base85.c `encode_z85` chunk loop with the threaded column counter. -/
def encode_z85_loop (wrap : Nat) : List (List Nat) → Nat → (List Nat × Nat)
  | [], col => ([], col)
  | g :: gs, col =>
    let r1 := z85_emit wrap (z85_encode_group g) col
    let r2 := encode_z85_loop wrap gs r1.2
    (r1.1 ++ r2.1, r2.2)

/-- base85.c `encode_z85` (lines 166-264): encode all chunks, then append
a final newline only when `wrap > 0 && column > 0` (lines 246-252). -/
def encode_z85 (bytes : List Nat) (wrap : Nat) : List Nat :=
  let r := encode_z85_loop wrap (toGroups bytes) 0
  r.1 ++ (if 0 < wrap ∧ 0 < r.2 then [10] else [])

/-- base85.c `decode_z85` padding loop (lines 341-344):
`while (count < 5) value = value * 85 + 84` on the `uint32_t` accumulator,
with no overflow check (hence mod 2^32), iterated `k = 5 - count` times. -/
def z85_pad : Nat → Nat → Nat
  | 0, v => v
  | k + 1, v => z85_pad k ((v * 85 + 84) % 4294967296)

/-- base85.c `decode_z85` character loop and final-group handling (lines
285-362).  State: remaining input, the `ignore_garbage` flag, the
`uint32_t` accumulator `value` (reduced mod 2^32 at each step, as the C
code performs no overflow check), and `count`.  Whitespace is skipped;
an invalid character is skipped under `-i` and otherwise aborts; every
5th character flushes 4 big-endian bytes.  At EOF, `count == 1` is an
error; for `count` in 2..4 the accumulator is padded with digit 84 up to
5, after which the C code computes `output_bytes = count - 1` FROM THE
PADDED COUNT (now 5) and therefore always emits 4 bytes. -/
def decode_z85_loop : List Nat → Bool → Nat → Nat → Option (List Nat)
  | [], _, value, count =>
    if count = 0 then some []
    else if count = 1 then none
    else some (unpack4 (z85_pad (5 - count) value))
  | c :: rest, ig, value, count =>
    if isspace c then decode_z85_loop rest ig value count
    else
      match z85_decoder c with
      | none => if ig then decode_z85_loop rest ig value count else none
      | some d =>
        let value2 := (value * 85 + d) % 4294967296
        if count + 1 = 5 then
          match decode_z85_loop rest ig 0 0 with
          | none => none
          | some out => some (unpack4 value2 ++ out)
        else decode_z85_loop rest ig value2 (count + 1)

/-- base85.c `decode_z85` entry point: accumulator and count start at 0. -/
def decode_z85 (input : List Nat) (ig : Bool) : Option (List Nat) :=
  decode_z85_loop input ig 0 0

/-- The raw Z85 character stream of an input (chunk encodings
concatenated, before wrap newlines). -/
def rawZ (bytes : List Nat) : List Nat :=
  ((toGroups bytes).map z85_encode_group).flatten

end Z85

/-- Modelled from the spec (section 4.1 wrap policy), for comparison with
the encoders: after each emitted character increment a column counter;
when `wrap_cols > 0` and the counter reaches `wrap_cols`, emit a newline
and reset the counter; at end of stream emit a final newline if wrapping
is disabled or the counter is nonzero. -/
def spec_wrap_go (wrap : Nat) : List Nat → Nat → List Nat
  | [], col => if wrap = 0 ∨ 0 < col then [10] else []
  | c :: rest, col =>
    if 0 < wrap ∧ wrap ≤ col + 1 then c :: 10 :: spec_wrap_go wrap rest 0
    else c :: spec_wrap_go wrap rest (col + 1)

/-- Modelled from the spec: the wrap policy applied to a raw character
stream starting at column 0. -/
def spec_wrap (wrap : Nat) (raw : List Nat) : List Nat :=
  spec_wrap_go wrap raw 0

namespace Factoradic

/-- factoradic.c `factorial` loop body (lines 39-44):
`for i = i0 .. n: if result > ULLONG_MAX / i return 0; result *= i`,
modelled with the remaining iteration count as first argument (the guard
keeps `result * i` within the unsigned 64-bit range, so plain `Nat`
multiplication is exact). -/
def fact_loop : Nat → Nat → Nat → Nat
  | 0, _, result => result
  | k + 1, i, result =>
    if 18446744073709551615 / i < result then 0
    else fact_loop k (i + 1) (result * i)

/-- factoradic.c `factorial` (lines 36-46): 1 for n <= 1, otherwise the
overflow-guarded product 2 * 3 * ... * n, returning 0 on 64-bit overflow
(n - 1 loop iterations starting at i = 2). -/
def factorial (n : Nat) : Nat :=
  if n ≤ 1 then 1 else fact_loop (n - 1) 2 1

/-- factoradic.c `decimal_to_factoradic` search loop (lines 59-62):
`while (factorial(max_pos+1) <= num && factorial(max_pos+1) > 0) max_pos++`,
starting at max_pos = 1.  Fuel 30 can never run out: factorial 21 = 0, so
the condition fails at max_pos = 20 at the latest (19 increments). -/
def max_pos_loop : Nat → Nat → Nat → Nat
  | 0, mp, _ => mp
  | fuel + 1, mp, num =>
    if factorial (mp + 1) ≤ num ∧ 0 < factorial (mp + 1) then
      max_pos_loop fuel (mp + 1) num
    else mp

/-- factoradic.c `decimal_to_factoradic` digit loop (lines 73-91):
`for pos = max_pos downto 1: digit = remaining / pos!;
 if digit > pos error; emit char; remaining %= pos!`.
Digit characters are emitted as `48 + digit` (the C code stores
`'0' + digit`); `none` models the early error return. -/
def d2f_loop : Nat → Nat → Option (List Nat)
  | 0, _ => some []
  | pos + 1, remaining =>
    let fact := factorial (pos + 1)
    let digit := remaining / fact
    if pos + 1 < digit then none
    else
      match d2f_loop pos (remaining % fact) with
      | none => none
      | some ds => some ((48 + digit) :: ds)

/-- factoradic.c `decimal_to_factoradic` (lines 48-106): "0" for input 0,
otherwise the digit string from the highest fitting position down to
position 1 (the model returns the digit characters; the C code prints
them followed by a newline). -/
def decimal_to_factoradic (num : Nat) : Option (List Nat) :=
  if num = 0 then some [48]
  else d2f_loop (max_pos_loop 30 1 num) num

/-- factoradic.c `factoradic_to_decimal` loop (lines 117-150): for each
character (position = number of remaining characters): reject non-digits;
reject `digit > position`; `contribution = digit * factorial(position)`
as a C `unsigned long long` product (mod 2^64 - it can wrap); reject when
`result > ULLONG_MAX - contribution`; accumulate.  No check that
`factorial(position)` overflowed to 0. -/
def f2d_loop : List Nat → Nat → Option Nat
  | [], result => some result
  | c :: rest, result =>
    if ¬(48 ≤ c ∧ c ≤ 57) then none
    else
      let digit := c - 48
      let position := rest.length + 1
      if position < digit then none
      else
        let contribution := digit * factorial position % 18446744073709551616
        if 18446744073709551615 - contribution < result then none
        else f2d_loop rest (result + contribution)

/-- factoradic.c `factoradic_to_decimal` (lines 108-163): accumulate from
the leftmost digit (highest position); `none` models the early error
returns, `some r` the printed decimal result. -/
def factoradic_to_decimal (s : List Nat) : Option Nat :=
  f2d_loop s 0

end Factoradic

namespace Leet

/-- leet.c `basic_leet` (lines 16-25): the level-1 table, entries in
source order; keys and replacement strings as character-code lists
(a/A→4, e/E→3, i/I→1, l/L→1, o/O→0, s/S→5, t/T→7). -/
def basic_leet : List (List Nat × List Nat) :=
  [([97], [52]), ([65], [52]),
   ([101], [51]), ([69], [51]),
   ([105], [49]), ([73], [49]),
   ([108], [49]), ([76], [49]),
   ([111], [48]), ([79], [48]),
   ([115], [53]), ([83], [53]),
   ([116], [55]), ([84], [55])]

/-- leet.c `find_leet_char` (lines 88-95): first table entry whose key
string starts with `c`; returns its replacement string. -/
def find_leet_char (c : Nat) (table : List (List Nat × List Nat)) : Option (List Nat) :=
  (table.find? (fun e => e.1.headD 0 == c)).map (fun e => e.2)

/-- leet.c `find_normal_char` (lines 97-104): first table entry whose
replacement string has length `len` and matches the first `len`
characters at the current position; returns the key character. -/
def find_normal_char (s : List Nat) (len : Nat) (table : List (List Nat × List Nat)) : Option Nat :=
  (table.find? (fun e => e.2.length == len && e.2 == s.take len)).map
    (fun e => e.1.headD 0)

/-- leet.c `encode_leetspeak` (lines 106-124): per input character, emit
the replacement string if the table has one, else the character itself. -/
def encode_leetspeak (table : List (List Nat × List Nat)) (input : List Nat) : List Nat :=
  (input.map (fun c =>
    match find_leet_char c table with
    | some l => l
    | none => [c])).flatten

/-- leet.c `decode_leetspeak` matching step (lines 147-158): try
`find_normal_char` for lengths 4 down to 1, each guarded by
`i + len <= buf_pos` (enough characters remain); the first hit wins. -/
def leet_match (table : List (List Nat × List Nat)) (s : List Nat) : Option (Nat × Nat) :=
  match (if 4 ≤ s.length then find_normal_char s 4 table else none) with
  | some n => some (n, 4)
  | none =>
    match (if 3 ≤ s.length then find_normal_char s 3 table else none) with
    | some n => some (n, 3)
    | none =>
      match (if 2 ≤ s.length then find_normal_char s 2 table else none) with
      | some n => some (n, 2)
      | none =>
        match (if 1 ≤ s.length then find_normal_char s 1 table else none) with
        | some n => some (n, 1)
        | none => none

/-- leet.c `decode_leetspeak` scan loop (lines 144-164): at each position
emit the matched key and advance by the match length, or emit the raw
character and advance by 1.  The fuel argument (always at least the
remaining length, so the 0 case is unreachable) makes the recursion
structural. -/
def decode_leet_go (table : List (List Nat × List Nat)) : Nat → List Nat → List Nat
  | _, [] => []
  | 0, _ :: _ => []
  | fuel + 1, c :: rest =>
    match leet_match table (c :: rest) with
    | some (n, len) => n :: decode_leet_go table fuel ((c :: rest).drop len)
    | none => c :: decode_leet_go table fuel rest

/-- leet.c `decode_leetspeak` (lines 126-165): the read loop
`while ((c = fgetc(input)) != EOF && buf_pos < sizeof(buffer) - 1)` stores
at most the first 1023 input bytes in the 1024-byte buffer (everything
beyond is discarded with no message), then scans the buffer. -/
def decode_leetspeak (table : List (List Nat × List Nat)) (input : List Nat) : List Nat :=
  decode_leet_go table (input.take 1023).length (input.take 1023)

end Leet

namespace Binary

/-- binary.c `decode_file` (lines 131-185).  State: remaining input, the
`unsigned char` shift register (mod 256) and `bit_count`.  Characters
other than '0'/'1' are skipped; every 8th bit emits the byte.  At EOF a
nonzero `bit_count` only produces a stderr warning: NO byte is emitted
for the trailing bits, and the function still returns 0 (success), which
the totality of this model reflects. -/
def decode_file_loop : List Nat → Nat → Nat → List Nat
  | [], _, _ => []
  | c :: rest, byte, cnt =>
    if c = 48 ∨ c = 49 then
      let byte2 := (byte * 2 + (c - 48)) % 256
      if cnt + 1 = 8 then byte2 :: decode_file_loop rest 0 0
      else decode_file_loop rest byte2 (cnt + 1)
    else decode_file_loop rest byte cnt

/-- binary.c `decode_file` entry: shift register and bit count start at 0. -/
def decode_file (input : List Nat) : List Nat :=
  decode_file_loop input 0 0

/-- The number of '0'/'1' characters in the input (the bits the decoder
consumes). -/
def bitCount (input : List Nat) : Nat :=
  (input.filter (fun c => c == 48 || c == 49)).length

end Binary

namespace Dna

/-- C `toupper` on byte values (ASCII lowercase to uppercase). -/
def toupper (c : Nat) : Nat :=
  if 97 ≤ c ∧ c ≤ 122 then c - 32 else c

/-- dna.c `get_complement` (lines 43-51): A<->T, G<->C on the uppercased
base, anything else returned unchanged. -/
def get_complement (c : Nat) : Nat :=
  if toupper c = 65 then 84
  else if toupper c = 84 then 65
  else if toupper c = 71 then 67
  else if toupper c = 67 then 71
  else c

/-- dna.c `nucleotide_to_bits` (lines 59-67): index of the first mapping
position whose uppercased character equals the uppercased input, else -1
(`none`). -/
def nucleotide_to_bits (c : Nat) (mapping : List Nat) : Option Nat :=
  (List.range 4).find? (fun i => toupper (mapping.getD i 0) == toupper c)

/-- dna.c `decode_dna` (lines 167-237).  State: remaining input, the
`unsigned char` shift register (mod 256) and `nucleotide_count`.
Whitespace is skipped; the complement is applied before lookup when
enabled; invalid characters are warned about and skipped; every 4th
nucleotide emits the byte.  At EOF a nonzero count left-shifts the
partial bits to a full byte (low bits zero), EMITS that padded byte,
warns, and the function returns EXIT_SUCCESS. -/
def decode_dna_loop (mapping : List Nat) (comp : Bool) : List Nat → Nat → Nat → List Nat
  | [], byte, cnt =>
    if 0 < cnt then [byte * 2 ^ (2 * (4 - cnt)) % 256] else []
  | c :: rest, byte, cnt =>
    if isspace c then decode_dna_loop mapping comp rest byte cnt
    else
      match nucleotide_to_bits (if comp then get_complement c else c) mapping with
      | none => decode_dna_loop mapping comp rest byte cnt
      | some bits =>
        let byte2 := (byte * 4 + bits) % 256
        if cnt + 1 = 4 then byte2 :: decode_dna_loop mapping comp rest 0 0
        else decode_dna_loop mapping comp rest byte2 (cnt + 1)

/-- dna.c `decode_dna` entry: shift register and nucleotide count start
at 0. -/
def decode_dna (mapping : List Nat) (comp : Bool) (input : List Nat) : List Nat :=
  decode_dna_loop mapping comp input 0 0

/-- The number of input characters the DNA decoder consumes as
nucleotides: not whitespace, and resolvable through the mapping (after
the optional complement). -/
def dnaCount (mapping : List Nat) (comp : Bool) (input : List Nat) : Nat :=
  (input.filter (fun c =>
    !isspace c && (nucleotide_to_bits (if comp then get_complement c else c) mapping).isSome)).length

/-- The default nucleotide mapping "atgc" of dna.c `main`. -/
def atgc : List Nat := [97, 116, 103, 99]

end Dna

/-!
Claim theorems.
-/

/-- C1: the claim states that decode(encode(bytes)) recovers every byte
sequence of length a multiple of 4 for both codecs.  It fails for Z85:
`z85_decoder` is not the inverse of `z85_alphabet` (the lowercase and
uppercase letter ranges are swapped, several punctuation entries are
permuted, and the alphabet characters 62 ('>') and 125 (right brace)
decode as invalid).  Encoding the 4-byte input 00 00 00 0A yields
"0000a"; decoding maps 'a' to digit 36 instead of 10, producing
00 00 00 24. -/
theorem C1_bug :
    Z85.decode_z85 (Z85.encode_z85 [0, 0, 0, 10] 0) false = some [0, 0, 0, 36] ∧
    Z85.decode_z85 (Z85.encode_z85 [0, 0, 0, 10] 0) false ≠ some [0, 0, 0, 10] := by
  constructor
  · decide
  · decide

/-- C2: the claim states that encode-then-decode is exact for inputs with
a trailing short group.  Both decoders get the short group wrong.
ascii85.c `decode_group` writes the short group's bytes at positions 3
down to 4-n of the `decoded` buffer while the caller emits positions 0
to n-1, so for input 01 02 03 04 05 06 the decoder emits 01 02 03 04
followed by the stale buffer bytes 01 02 (from the previous full group)
instead of 05 06.  base85.c `decode_z85` computes `output_bytes = count - 1`
after the padding loop has already set `count = 5`, so the 1-byte input 00
("00" encoded) decodes to 4 bytes 00 09 5E EC instead of 1. -/
theorem C2_bug :
    (Ascii85.encode_ascii85 [1, 2, 3, 4, 5, 6] 0 false false).bind
        (fun o => Ascii85.decode_ascii85 o [0, 0, 0, 0]) = some [1, 2, 3, 4, 1, 2] ∧
    (Ascii85.encode_ascii85 [1, 2, 3, 4, 5, 6] 0 false false).bind
        (fun o => Ascii85.decode_ascii85 o [0, 0, 0, 0]) ≠ some [1, 2, 3, 4, 5, 6] ∧
    Z85.decode_z85 (Z85.encode_z85 [0] 0) false = some [0, 9, 94, 236] ∧
    Z85.decode_z85 (Z85.encode_z85 [0] 0) false ≠ some [0] := by
  refine ⟨by decide, by decide, by decide, by decide⟩

/-- C3 counterexample: the claim states that the Z85 decoder also rejects
five characters whose base-85 value exceeds 0xFFFFFFFF; in fact
base85.c `decode_z85` has no overflow check, so the group "#####" (five
copies of the maximum digit 84, value 85^5 - 1 = 4437053124) silently
wraps modulo 2^32 to 142085828 and decodes successfully. -/
theorem C3_counterexample :
    Z85.decode_z85 (List.replicate 5 35) false = some [8, 120, 14, 196] := by
  decide

/-- C4 counterexample: the claim states that encoded output always ends
with exactly one newline regardless of the wrap setting; base85.c
`encode_z85` appends the final newline only when `wrap > 0 && column > 0`,
so with wrapping disabled the output of the 4-byte input 00 00 00 00 is
"00000" with no trailing newline. -/
theorem C4_counterexample :
    Z85.encode_z85 [0, 0, 0, 0] 0 = [48, 48, 48, 48, 48] ∧
    (Z85.encode_z85 [0, 0, 0, 0] 0).getLast? ≠ some 10 := by
  refine ⟨by decide, by decide⟩

/-- C5: encoding the full all-zero group with zero-compression on yields
exactly the marker 'z' (122); encoding the full all-space group with
space-compression on yields exactly 'y' (121); decoding 'z' as a group
yields four 0x00 bytes and decoding 'y' four 0x20 bytes (for any content
of the caller's output buffer). -/
theorem C5_special_markers :
    (∀ uy, Ascii85.encode_group [0, 0, 0, 0] true uy = [122]) ∧
    (∀ uz, Ascii85.encode_group [32, 32, 32, 32] uz true = [121]) ∧
    (∀ dbuf, (Ascii85.decode_group [122] dbuf).map (fun r => r.1.take r.2) = some [0, 0, 0, 0] ∧
      (Ascii85.decode_group [121] dbuf).map (fun r => r.1.take r.2) = some [32, 32, 32, 32]) := by
  refine ⟨fun uy => by cases uy <;> rfl, fun uz => by cases uz <;> rfl,
    fun dbuf => ⟨rfl, rfl⟩⟩

/-- C6 counterexample: the claim (and the tool's own help text) states
decimal_to_factoradic(463) = "34201" and factoradic_to_decimal("34201") =
463; the code converts 463 to "34101" (indeed 3*5! + 4*4! + 2*3! + 0*2! +
1*1! = 469, so "34201" cannot equal 463 in this digit system), and
decoding "34201" yields 469. -/
theorem C6_counterexample :
    Factoradic.decimal_to_factoradic 463 ≠ some [51, 52, 50, 48, 49] ∧
    Factoradic.factoradic_to_decimal [51, 52, 50, 48, 49] = some 469 := by
  refine ⟨by decide, by decide⟩

/-- C6 amended: decimal_to_factoradic(0) = "0";
decimal_to_factoradic(463) = "34101" (not "34201");
factoradic_to_decimal("34101") = 463; and the digit 5 at position 1
(which only allows 0 or 1) is rejected as an error. -/
theorem C6_amended :
    Factoradic.decimal_to_factoradic 0 = some [48] ∧
    Factoradic.decimal_to_factoradic 463 = some [51, 52, 49, 48, 49] ∧
    Factoradic.factoradic_to_decimal [51, 52, 49, 48, 49] = some 463 ∧
    Factoradic.factoradic_to_decimal [53] = none := by
  refine ⟨by decide, by decide, by decide, by decide⟩

/-- C7: the claim states both conversion directions fail with an error
whenever an out-of-range factorial (position above 20) is involved.
`factorial 21` does return 0 (the overflow signal), but
factoradic.c `factoradic_to_decimal` never checks for it: on the
21-digit input "1" followed by twenty "0" it multiplies each digit by the
overflowed factorial value 0 and SUCCEEDS, silently printing 0 instead of
failing. -/
theorem C7_bug :
    Factoradic.factorial 21 = 0 ∧
    Factoradic.factoradic_to_decimal (49 :: List.replicate 20 48) = some 0 := by
  refine ⟨by decide, by decide⟩

/-- C8 counterexample: the claim states leetspeak level 1 round-trips
"hello".  Encoding gives "h3110" as claimed, but the basic table is NOT
injective: both i/I and l/L map to "1", and the decoder resolves "1" to
the first matching table entry 'i', so decoding returns "heiio", not
"hello". -/
theorem C8_counterexample :
    Leet.decode_leetspeak Leet.basic_leet
        (Leet.encode_leetspeak Leet.basic_leet [104, 101, 108, 108, 111]) =
      [104, 101, 105, 105, 111] ∧
    ([104, 101, 105, 105, 111] : List Nat) ≠ [104, 101, 108, 108, 111] := by
  refine ⟨by decide, by decide⟩

/-- C8 amended: encoding "hello" with the basic level-1 table produces
"h3110", but decoding "h3110" returns "heiio": the substitution "1" is
shared by i and l, so the round trip fails for words containing 'l'. -/
theorem C8_amended :
    Leet.encode_leetspeak Leet.basic_leet [104, 101, 108, 108, 111] =
      [104, 51, 49, 49, 48] ∧
    Leet.decode_leetspeak Leet.basic_leet [104, 51, 49, 49, 48] =
      [104, 101, 105, 105, 111] := by
  refine ⟨by decide, by decide⟩

/-- C9 counterexample: the claim states both bitstream decoders emit the
zero-padded trailing partial byte.  binary.c `decode_file` only warns: on
the input "1" the claim requires the padded byte 0x80 to be emitted, but
the decoder emits nothing (while still returning success). -/
theorem C9_counterexample :
    Binary.decode_file [49] = [] ∧ Binary.decode_file [49] ≠ [128] := by
  refine ⟨by decide, by decide⟩

/-- Decoding the character `d + 33` gives back the digit d for d < 85. -/
lemma ascii85_decode_char_digit (d : Nat) (hd : d < 85) :
    Ascii85.ascii85_decode_char (d + 33) = some d := by
  unfold Ascii85.ascii85_decode_char
  rw [if_pos (by omega)]
  rw [Nat.add_sub_cancel]

/-- Soundness of the checked accumulation: when `acc_digits` succeeds on
a digit character list it returns the plain base-85 fold, and (for a
nonempty list) the overflow check has bounded it by UINT32_MAX. -/
lemma acc_digits_some : ∀ (ds : List Nat) (a v : Nat), (∀ d ∈ ds, d < 85) →
    Ascii85.acc_digits (ds.map (fun d => d + 33)) a = some v →
    v = ds.foldl (fun x d => x * 85 + d) a ∧ (ds = [] ∨ v ≤ 4294967295) := by
  intro ds
  induction ds with
  | nil =>
    intro a v _ h
    simp only [List.map_nil, Ascii85.acc_digits, Option.some.injEq] at h
    exact ⟨h.symm, Or.inl rfl⟩
  | cons d ds ih =>
    intro a v hlt h
    simp only [List.map_cons, Ascii85.acc_digits,
      ascii85_decode_char_digit d (hlt d (by simp))] at h
    by_cases hchk : (4294967295 - d) / 85 < a
    · rw [if_pos hchk] at h
      cases h
    · rw [if_neg hchk] at h
      obtain ⟨hv, hb⟩ := ih (a * 85 + d) v (fun x hx => hlt x (by simp [hx])) h
      refine ⟨hv, Or.inr ?_⟩
      rcases hb with hnil | hbound
      · subst hnil
        simp only [List.foldl_nil] at hv
        have hd : d < 85 := hlt d (by simp)
        omega
      · exact hbound

/-- Soundness of the checked padding: when `pad_digits` succeeds it
returns the plain fold over k copies of the digit 84, and (for k > 0) the
overflow check has bounded it by UINT32_MAX. -/
lemma pad_digits_some : ∀ (k v w : Nat),
    Ascii85.pad_digits k v = some w →
    w = (List.replicate k 84).foldl (fun x d => x * 85 + d) v ∧
      (k = 0 ∨ w ≤ 4294967295) := by
  intro k
  induction k with
  | zero =>
    intro v w h
    simp only [Ascii85.pad_digits, Option.some.injEq] at h
    exact ⟨h.symm, Or.inl rfl⟩
  | succ k ih =>
    intro v w h
    simp only [Ascii85.pad_digits] at h
    by_cases hchk : (4294967295 - 84) / 85 < v
    · rw [if_pos hchk] at h
      cases h
    · rw [if_neg hchk] at h
      obtain ⟨hw, hb⟩ := ih (v * 85 + 84) w h
      refine ⟨by simpa using hw, Or.inr ?_⟩
      rcases hb with hk | hbound
      · subst hk
        simp only [List.replicate_zero, List.foldl_nil] at hw
        omega
      · exact hbound

/-- A whitespace character is never a Z85 alphabet character. -/
lemma z85_decoder_of_space (c : Nat) (h : isspace c = true) :
    Z85.z85_decoder c = none := by
  simp only [isspace, decide_eq_true_eq] at h
  rcases h with h | ⟨h1, h2⟩
  · subst h; decide
  · interval_cases c <;> decide

/-- C3 amended: the overflow check exists only in the ASCII85 decoder.
Part 1: ascii85.c `decode_group` rejects every group of 2-5 digit
characters whose base-85 value, after padding a short group with the
maximum digit 84, exceeds 0xFFFFFFFF - the check is applied identically
during accumulation and padding.  Part 2: base85.c `decode_z85` performs
NO overflow check: it accepts every 5-character group of alphabet
characters outright (the 32-bit accumulator silently wraps modulo 2^32,
as the counterexample shows concretely). -/
theorem C3_amended :
    (∀ ds : List Nat, 2 ≤ ds.length → ds.length ≤ 5 → (∀ d ∈ ds, d < 85) →
      4294967295 <
        (ds ++ List.replicate (5 - ds.length) 84).foldl (fun x d => x * 85 + d) 0 →
      ∀ dbuf, Ascii85.decode_group (ds.map (fun d => d + 33)) dbuf = none) ∧
    (∀ cs : List Nat, cs.length = 5 → (∀ c ∈ cs, (Z85.z85_decoder c).isSome) →
      (Z85.decode_z85 cs false).isSome) := by
  constructor
  · intro ds h2 h5 hlt hov dbuf
    unfold Ascii85.decode_group
    simp only [List.length_map]
    rw [if_neg (by omega)]
    rw [if_neg (fun heq => by
      have hl := congrArg List.length heq
      simp at hl
      omega)]
    rw [if_neg (fun heq => by
      have hl := congrArg List.length heq
      simp at hl
      omega)]
    rw [if_neg (by omega)]
    rcases hacc : Ascii85.acc_digits (ds.map (fun d => d + 33)) 0 with _ | v
    · rfl
    · obtain ⟨hv, hvb⟩ := acc_digits_some ds 0 v hlt hacc
      show (match Ascii85.pad_digits (5 - ds.length) v with
        | none => none
        | some w =>
          some (Ascii85.writeBytes dbuf w (ds.length - 1), ds.length - 1)) = none
      rcases hpad : Ascii85.pad_digits (5 - ds.length) v with _ | w
      · rfl
      · exfalso
        obtain ⟨hw, hwb⟩ := pad_digits_some _ v w hpad
        rw [List.foldl_append, ← hv, ← hw] at hov
        have hne : ds ≠ [] := by
          intro hnil
          rw [hnil] at h2
          simp at h2
        rcases hvb with hnil | hvbound
        · exact hne hnil
        · rcases hwb with hk | hwbound
          · have h55 : ds.length = 5 := by omega
            rw [hk] at hw
            simp only [List.replicate_zero, List.foldl_nil] at hw
            omega
          · omega
  · intro cs hlen hdec
    match cs, hlen with
    | [c0, c1, c2, c3, c4], _ =>
      have h0 := hdec c0 (by simp)
      have h1 := hdec c1 (by simp)
      have h2 := hdec c2 (by simp)
      have h3 := hdec c3 (by simp)
      have h4 := hdec c4 (by simp)
      rcases hd0 : Z85.z85_decoder c0 with _ | d0
      · rw [hd0] at h0; cases h0
      rcases hd1 : Z85.z85_decoder c1 with _ | d1
      · rw [hd1] at h1; cases h1
      rcases hd2 : Z85.z85_decoder c2 with _ | d2
      · rw [hd2] at h2; cases h2
      rcases hd3 : Z85.z85_decoder c3 with _ | d3
      · rw [hd3] at h3; cases h3
      rcases hd4 : Z85.z85_decoder c4 with _ | d4
      · rw [hd4] at h4; cases h4
      have hs0 : isspace c0 = false := by
        cases hsp : isspace c0
        · rfl
        · rw [z85_decoder_of_space c0 hsp] at hd0; cases hd0
      have hs1 : isspace c1 = false := by
        cases hsp : isspace c1
        · rfl
        · rw [z85_decoder_of_space c1 hsp] at hd1; cases hd1
      have hs2 : isspace c2 = false := by
        cases hsp : isspace c2
        · rfl
        · rw [z85_decoder_of_space c2 hsp] at hd2; cases hd2
      have hs3 : isspace c3 = false := by
        cases hsp : isspace c3
        · rfl
        · rw [z85_decoder_of_space c3 hsp] at hd3; cases hd3
      have hs4 : isspace c4 = false := by
        cases hsp : isspace c4
        · rfl
        · rw [z85_decoder_of_space c4 hsp] at hd4; cases hd4
      simp [Z85.decode_z85, Z85.decode_z85_loop, hs0, hs1, hs2, hs3, hs4,
        hd0, hd1, hd2, hd3, hd4]

/-- C3 witness: part 1 applied to five copies of the maximum digit 84
(value 85^5 - 1 = 4437053124 > 0xFFFFFFFF, the claim's own example),
part 2 applied to five '#' characters. -/
theorem C3_witness :
    (2 ≤ (List.replicate 5 84 : List Nat).length ∧
      (List.replicate 5 84 : List Nat).length ≤ 5 ∧
      (∀ d ∈ (List.replicate 5 84 : List Nat), d < 85) ∧
      4294967295 <
        ((List.replicate 5 84 : List Nat) ++
          List.replicate (5 - (List.replicate 5 84 : List Nat).length) 84).foldl
          (fun x d => x * 85 + d) 0 ∧
      Ascii85.decode_group ((List.replicate 5 84 : List Nat).map (fun d => d + 33))
        [0, 0, 0, 0] = none) ∧
    ((List.replicate 5 35 : List Nat).length = 5 ∧
      (∀ c ∈ (List.replicate 5 35 : List Nat), (Z85.z85_decoder c).isSome) ∧
      (Z85.decode_z85 (List.replicate 5 35) false).isSome) :=
  ⟨⟨by decide, by decide, by decide, by decide,
    C3_amended.1 (List.replicate 5 84) (by decide) (by decide) (by decide)
      (by decide) [0, 0, 0, 0]⟩,
   ⟨by decide, by decide,
    C3_amended.2 (List.replicate 5 35) (by decide) (by decide)⟩⟩

/-- Output length of the binary bitstream decoder from an arbitrary
shift-register state: one byte per 8 consumed bits, the trailing partial
byte DISCARDED (floor division). -/
lemma bin_len : ∀ (cs : List Nat) (byte cnt : Nat), cnt < 8 →
    (Binary.decode_file_loop cs byte cnt).length = (cnt + Binary.bitCount cs) / 8 := by
  intro cs
  induction cs with
  | nil =>
    intro byte cnt h
    simp only [Binary.decode_file_loop, Binary.bitCount, List.filter_nil,
      List.length_nil]
    omega
  | cons c rest ih =>
    intro byte cnt h
    by_cases hb : c = 48 ∨ c = 49
    · have hcount : Binary.bitCount (c :: rest) = 1 + Binary.bitCount rest := by
        simp only [Binary.bitCount, List.filter_cons]
        rcases hb with h48 | h49
        · subst h48; simp; omega
        · subst h49; simp; omega
      simp only [Binary.decode_file_loop, if_pos hb]
      by_cases h8 : cnt + 1 = 8
      · rw [if_pos h8]
        simp only [List.length_cons, ih 0 0 (by omega), hcount]
        omega
      · rw [if_neg h8, ih _ (cnt + 1) (by omega), hcount]
        omega
    · have hcount : Binary.bitCount (c :: rest) = Binary.bitCount rest := by
        simp only [Binary.bitCount, List.filter_cons]
        have h48 : ¬(c = 48) := fun hh => hb (Or.inl hh)
        have h49 : ¬(c = 49) := fun hh => hb (Or.inr hh)
        simp [h48, h49]
      simp only [Binary.decode_file_loop, if_neg hb]
      rw [ih byte cnt h, hcount]

/-- Output length of the DNA decoder from an arbitrary state: one byte
per 4 consumed nucleotides, and the trailing partial byte IS emitted
(ceiling division). -/
lemma dna_len : ∀ (mapping : List Nat) (comp : Bool) (cs : List Nat) (byte cnt : Nat),
    cnt < 4 →
    (Dna.decode_dna_loop mapping comp cs byte cnt).length =
      (cnt + Dna.dnaCount mapping comp cs + 3) / 4 := by
  intro mapping comp cs
  induction cs with
  | nil =>
    intro byte cnt h4
    simp only [Dna.decode_dna_loop, Dna.dnaCount, List.filter_nil, List.length_nil]
    by_cases h : 0 < cnt
    · rw [if_pos h]
      simp only [List.length_singleton]
      omega
    · rw [if_neg h]
      simp only [List.length_nil]
      omega
  | cons c rest ih =>
    intro byte cnt h4
    by_cases hsp : isspace c = true
    · have hcount : Dna.dnaCount mapping comp (c :: rest) =
          Dna.dnaCount mapping comp rest := by
        simp [Dna.dnaCount, List.filter_cons, hsp]
      simp only [Dna.decode_dna_loop, if_pos hsp]
      rw [ih byte cnt h4, hcount]
    · rcases hnb : Dna.nucleotide_to_bits (if comp then Dna.get_complement c else c)
          mapping with _ | bits
      · have hcount : Dna.dnaCount mapping comp (c :: rest) =
            Dna.dnaCount mapping comp rest := by
          simp [Dna.dnaCount, List.filter_cons, hsp, hnb]
        simp only [Dna.decode_dna_loop, if_neg hsp, hnb]
        rw [ih byte cnt h4, hcount]
      · have hcount : Dna.dnaCount mapping comp (c :: rest) =
            1 + Dna.dnaCount mapping comp rest := by
          simp [Dna.dnaCount, List.filter_cons, hsp, hnb]
          omega
        simp only [Dna.decode_dna_loop, if_neg hsp, hnb]
        by_cases h41 : cnt + 1 = 4
        · rw [if_pos h41]
          simp only [List.length_cons, ih 0 0 (by omega), hcount]
          omega
        · rw [if_neg h41, ih _ (cnt + 1) (by omega), hcount]
          omega

/-- The character 'A' (65) is not whitespace and resolves to the 2-bit
value 0 under the default mapping. -/
lemma nucleotide_A : isspace 65 = false ∧
    Dna.nucleotide_to_bits 65 Dna.atgc = some 0 := by
  refine ⟨by decide, by decide⟩

/-- One step of the DNA decoder on an 'A' under the default mapping with
complement off: shift in the 2-bit value 0. -/
lemma dna_loop_A (rest : List Nat) (byte cnt : Nat) :
    Dna.decode_dna_loop Dna.atgc false (65 :: rest) byte cnt =
      if cnt + 1 = 4 then byte * 4 % 256 :: Dna.decode_dna_loop Dna.atgc false rest 0 0
      else Dna.decode_dna_loop Dna.atgc false rest (byte * 4 % 256) (cnt + 1) := by
  simp [Dna.decode_dna_loop, nucleotide_A.1, nucleotide_A.2]

/-- Appending exactly the number of 'A' nucleotides (2-bit value 0) that
would complete the current partial group does not change the DNA decoder
output: the decoder's final left-shift padding behaves as if the missing
low symbols were zeros. -/
lemma dna_pad : ∀ (cs : List Nat) (byte cnt : Nat), cnt < 4 →
    Dna.decode_dna_loop Dna.atgc false
      (cs ++ List.replicate ((4 - (cnt + Dna.dnaCount Dna.atgc false cs) % 4) % 4) 65)
      byte cnt = Dna.decode_dna_loop Dna.atgc false cs byte cnt := by
  intro cs
  induction cs with
  | nil =>
    intro byte cnt h4
    simp only [Dna.dnaCount, List.filter_nil, List.length_nil, Nat.add_zero,
      List.nil_append]
    interval_cases cnt
    · rfl
    · show Dna.decode_dna_loop Dna.atgc false [65, 65, 65] byte 1 =
          Dna.decode_dna_loop Dna.atgc false [] byte 1
      simp [dna_loop_A, Dna.decode_dna_loop, nucleotide_A.1, nucleotide_A.2]
      omega
    · show Dna.decode_dna_loop Dna.atgc false [65, 65] byte 2 =
          Dna.decode_dna_loop Dna.atgc false [] byte 2
      simp [dna_loop_A, Dna.decode_dna_loop, nucleotide_A.1, nucleotide_A.2]
      omega
    · show Dna.decode_dna_loop Dna.atgc false [65] byte 3 =
          Dna.decode_dna_loop Dna.atgc false [] byte 3
      simp [dna_loop_A, Dna.decode_dna_loop, nucleotide_A.1, nucleotide_A.2]
  | cons c rest ih =>
    intro byte cnt h4
    have hcomp : (if false = true then Dna.get_complement c else c) = c := rfl
    by_cases hsp : isspace c = true
    · have hcount : Dna.dnaCount Dna.atgc false (c :: rest) =
          Dna.dnaCount Dna.atgc false rest := by
        simp [Dna.dnaCount, List.filter_cons, hsp]
      rw [hcount]
      simp only [List.cons_append, Dna.decode_dna_loop, if_pos hsp]
      exact ih byte cnt h4
    · rcases hnb : Dna.nucleotide_to_bits c Dna.atgc with _ | bits
      · have hcount : Dna.dnaCount Dna.atgc false (c :: rest) =
            Dna.dnaCount Dna.atgc false rest := by
          simp [Dna.dnaCount, List.filter_cons, hsp, hcomp, hnb]
        rw [hcount]
        simp only [List.cons_append, Dna.decode_dna_loop, if_neg hsp, hcomp, hnb]
        exact ih byte cnt h4
      · have hcount : Dna.dnaCount Dna.atgc false (c :: rest) =
            1 + Dna.dnaCount Dna.atgc false rest := by
          simp [Dna.dnaCount, List.filter_cons, hsp, hcomp, hnb]
          omega
        rw [hcount]
        simp only [List.cons_append, Dna.decode_dna_loop, if_neg hsp, hcomp, hnb]
        simp only [List.append_eq]
        by_cases h41 : cnt + 1 = 4
        · rw [if_pos h41, if_pos h41]
          have harg : (4 - (cnt + (1 + Dna.dnaCount Dna.atgc false rest)) % 4) % 4 =
              (4 - (0 + Dna.dnaCount Dna.atgc false rest) % 4) % 4 := by
            omega
          rw [harg, ih 0 0 (by omega)]
        · rw [if_neg h41, if_neg h41]
          have harg : (4 - (cnt + (1 + Dna.dnaCount Dna.atgc false rest)) % 4) % 4 =
              (4 - (cnt + 1 + Dna.dnaCount Dna.atgc false rest) % 4) % 4 := by
            omega
          rw [harg]
          exact ih _ (cnt + 1) (by omega)

/-- The ASCII85 output loop composes with the spec wrap policy: emitted
characters followed by the spec-wrapped remainder at the final column
equal the spec-wrapped whole. -/
lemma emit_spec_comp : ∀ (cs : List Nat) (wrap col : Nat) (o : List Nat) (c2 : Nat),
    Ascii85.emit_chars wrap cs col = some (o, c2) →
    ∀ rest, spec_wrap_go wrap (cs ++ rest) col = o ++ spec_wrap_go wrap rest c2 := by
  intro cs
  induction cs with
  | nil =>
    intro wrap col o c2 h rest
    simp only [Ascii85.emit_chars, Option.some.injEq, Prod.mk.injEq] at h
    obtain ⟨ho, hc⟩ := h
    subst ho
    subst hc
    simp
  | cons c cs ih =>
    intro wrap col o c2 h rest
    simp only [Ascii85.emit_chars] at h
    by_cases hw : 0 < wrap ∧ wrap ≤ col + 1
    · rw [if_pos hw] at h
      rcases hrec : Ascii85.emit_chars wrap cs 0 with _ | ⟨o1, c1⟩
      · rw [hrec] at h
        cases h
      · rw [hrec] at h
        simp only [Option.some.injEq, Prod.mk.injEq] at h
        obtain ⟨ho, hc⟩ := h
        subst ho
        subst hc
        simp only [List.cons_append, spec_wrap_go, if_pos hw, List.append_eq]
        rw [ih wrap 0 o1 c1 hrec rest]
    · rw [if_neg hw] at h
      by_cases hl : 32768 < col + 1
      · rw [if_pos hl] at h
        cases h
      · rw [if_neg hl] at h
        rcases hrec : Ascii85.emit_chars wrap cs (col + 1) with _ | ⟨o1, c1⟩
        · rw [hrec] at h
          cases h
        · rw [hrec] at h
          simp only [Option.some.injEq, Prod.mk.injEq] at h
          obtain ⟨ho, hc⟩ := h
          subst ho
          subst hc
          simp only [List.cons_append, spec_wrap_go, if_neg hw, List.append_eq]
          rw [ih wrap (col + 1) o1 c1 hrec rest]

/-- With wrapping on and a wrap width within the 32768 line cap, the
ASCII85 output loop never fails, and it keeps the column below the wrap
width. -/
lemma emit_ok_wrap : ∀ (cs : List Nat) (wrap col : Nat), 0 < wrap → wrap ≤ 32768 →
    col < wrap →
    ∃ o c2, Ascii85.emit_chars wrap cs col = some (o, c2) ∧ c2 < wrap := by
  intro cs
  induction cs with
  | nil =>
    intro wrap col hw _ hcol
    exact ⟨[], col, rfl, hcol⟩
  | cons c cs ih =>
    intro wrap col hw hw32 hcol
    by_cases hhit : wrap ≤ col + 1
    · obtain ⟨o, c2, hrec, hc2⟩ := ih wrap 0 hw hw32 hw
      refine ⟨c :: 10 :: o, c2, ?_, hc2⟩
      simp only [Ascii85.emit_chars, if_pos (And.intro hw hhit), hrec]
    · obtain ⟨o, c2, hrec, hc2⟩ := ih wrap (col + 1) hw hw32 (by omega)
      refine ⟨c :: o, c2, ?_, hc2⟩
      have hnw : ¬(0 < wrap ∧ wrap ≤ col + 1) := fun hh => hhit hh.2
      have hnl : ¬(32768 < col + 1) := by omega
      simp only [Ascii85.emit_chars, if_neg hnw, if_neg hnl, hrec]

/-- With wrapping off, the ASCII85 output loop succeeds exactly when the
line stays within the 32768 cap; it emits the characters unchanged and
advances the column by their number. -/
lemma emit_ok_nowrap : ∀ (cs : List Nat) (col : Nat), col + cs.length ≤ 32768 →
    Ascii85.emit_chars 0 cs col = some (cs, col + cs.length) := by
  intro cs
  induction cs with
  | nil =>
    intro col _
    rfl
  | cons c cs ih =>
    intro col hb
    simp only [List.length_cons] at hb
    have hnw : ¬(0 < 0 ∧ 0 ≤ col + 1) := by omega
    have hnl : ¬(32768 < col + 1) := by omega
    simp only [Ascii85.emit_chars, if_neg hnw, if_neg hnl, ih (col + 1) (by omega)]
    refine congrArg some ?_
    refine Prod.ext rfl ?_
    simp
    omega

/-- The ASCII85 encoder group loop produces exactly the spec wrap policy
applied to the raw encoded character stream, whenever wrapping is on with
width at most 32768, or wrapping is off and the stream fits the 32768
line cap. -/
lemma encode_groups_spec : ∀ (groups : List (List Nat)) (wrap col : Nat) (uz uy : Bool),
    (0 < wrap → wrap ≤ 32768 ∧ col < wrap) →
    (wrap = 0 →
      col + ((groups.map (fun g => Ascii85.encode_group g uz uy)).flatten).length ≤ 32768) →
    Ascii85.encode_groups wrap uz uy groups col =
      some (spec_wrap_go wrap
        ((groups.map (fun g => Ascii85.encode_group g uz uy)).flatten) col) := by
  intro groups
  induction groups with
  | nil =>
    intro wrap col uz uy _ _
    rfl
  | cons g gs ih =>
    intro wrap col uz uy h1 h2
    by_cases hw : 0 < wrap
    · obtain ⟨hw32, hcol⟩ := h1 hw
      obtain ⟨o, c2, hemit, hc2⟩ :=
        emit_ok_wrap (Ascii85.encode_group g uz uy) wrap col hw hw32 hcol
      simp only [Ascii85.encode_groups, hemit,
        ih wrap c2 uz uy (fun _ => ⟨hw32, hc2⟩) (fun h0 => absurd h0 (by omega))]
      rw [List.map_cons, List.flatten_cons,
        emit_spec_comp (Ascii85.encode_group g uz uy) wrap col o c2 hemit]
    · have hw0 : wrap = 0 := by omega
      subst hw0
      have hb := h2 rfl
      rw [List.map_cons, List.flatten_cons, List.length_append] at hb
      have hemit := emit_ok_nowrap (Ascii85.encode_group g uz uy) col (by omega)
      simp only [Ascii85.encode_groups, hemit,
        ih 0 (col + (Ascii85.encode_group g uz uy).length) uz uy
          (fun h0 => absurd h0 (by omega)) (fun _ => by omega)]
      rw [List.map_cons, List.flatten_cons,
        emit_spec_comp (Ascii85.encode_group g uz uy) 0 col _ _ hemit]

/-- The Z85 output loop distributes over appending character streams,
threading the column. -/
lemma z85_emit_append : ∀ (xs ys : List Nat) (wrap col : Nat),
    Z85.z85_emit wrap (xs ++ ys) col =
      ((Z85.z85_emit wrap xs col).1 ++
        (Z85.z85_emit wrap ys (Z85.z85_emit wrap xs col).2).1,
        (Z85.z85_emit wrap ys (Z85.z85_emit wrap xs col).2).2) := by
  intro xs
  induction xs with
  | nil =>
    intro ys wrap col
    simp [Z85.z85_emit]
  | cons x xs ih =>
    intro ys wrap col
    by_cases hw : 0 < wrap ∧ wrap ≤ col + 1
    · simp only [List.cons_append, Z85.z85_emit, if_pos hw, List.append_eq,
        ih ys wrap 0]
    · simp only [List.cons_append, Z85.z85_emit, if_neg hw, List.append_eq,
        ih ys wrap (col + 1)]

/-- The Z85 encoder chunk loop equals the Z85 output loop run on the
concatenated raw stream. -/
lemma encode_z85_loop_emit : ∀ (groups : List (List Nat)) (wrap col : Nat),
    Z85.encode_z85_loop wrap groups col =
      Z85.z85_emit wrap ((groups.map Z85.z85_encode_group).flatten) col := by
  intro groups
  induction groups with
  | nil =>
    intro wrap col
    rfl
  | cons g gs ih =>
    intro wrap col
    simp only [Z85.encode_z85_loop, List.map_cons, List.flatten_cons, z85_emit_append,
      ih wrap (Z85.z85_emit wrap (Z85.z85_encode_group g) col).2]

/-- The Z85 output loop composes with the spec wrap policy exactly like
the ASCII85 one (the per-character newline insertion rules coincide). -/
lemma z85_emit_spec : ∀ (cs : List Nat) (wrap col : Nat) (rest : List Nat),
    spec_wrap_go wrap (cs ++ rest) col =
      (Z85.z85_emit wrap cs col).1 ++
        spec_wrap_go wrap rest (Z85.z85_emit wrap cs col).2 := by
  intro cs
  induction cs with
  | nil =>
    intro wrap col rest
    simp [Z85.z85_emit]
  | cons c cs ih =>
    intro wrap col rest
    by_cases hw : 0 < wrap ∧ wrap ≤ col + 1
    · simp only [List.cons_append, spec_wrap_go, Z85.z85_emit, if_pos hw,
        List.append_eq, ih wrap 0 rest]
    · simp only [List.cons_append, spec_wrap_go, Z85.z85_emit, if_neg hw,
        List.append_eq, ih wrap (col + 1) rest]

/-- With wrapping off the Z85 output loop is the identity on the
characters and adds their number to the column. -/
lemma z85_emit_nowrap : ∀ (cs : List Nat) (col : Nat),
    Z85.z85_emit 0 cs col = (cs, col + cs.length) := by
  intro cs
  induction cs with
  | nil =>
    intro col
    simp [Z85.z85_emit]
  | cons c cs ih =>
    intro col
    have hnw : ¬(0 < 0 ∧ 0 ≤ col + 1) := by omega
    simp only [Z85.z85_emit, if_neg hnw, ih (col + 1)]
    refine Prod.ext rfl ?_
    simp
    omega

/-- Every digit produced by the extraction loop is below 85. -/
lemma encode_digits_lt : ∀ (k v : Nat), ∀ d ∈ encode_digits k v, d < 85 := by
  intro k
  induction k with
  | zero =>
    intro v d hd
    simp [encode_digits] at hd
  | succ k ih =>
    intro v d hd
    simp only [encode_digits, List.mem_append, List.mem_singleton] at hd
    rcases hd with hd | hd
    · exact ih (v / 85) d hd
    · subst hd
      omega

/-- The ASCII85 alphabet entry of digit d is the character d + 33. -/
lemma ascii85_chars_getD : ∀ d, d < 85 → Ascii85.ascii85_chars.getD d 0 = d + 33 := by
  decide

/-- No Z85 alphabet character is the newline character 10. -/
lemma z85_alphabet_ne_nl : ∀ d, d < 85 → Z85.z85_alphabet.getD d 0 ≠ 10 := by
  decide

/-- Every character of a raw ASCII85 stream (markers off) lies in the
alphabet range 33..117. -/
lemma rawA_mem : ∀ (bytes : List Nat) (c : Nat), c ∈ Ascii85.rawA bytes →
    33 ≤ c ∧ c ≤ 117 := by
  intro bytes c hc
  simp only [Ascii85.rawA, List.mem_flatten, List.mem_map] at hc
  obtain ⟨l, ⟨g, _, hg⟩, hcl⟩ := hc
  subst hg
  simp only [Ascii85.encode_group, Bool.false_eq_true, false_and, and_false,
    if_false] at hcl
  have hcl2 := List.mem_of_mem_take hcl
  simp only [List.mem_map] at hcl2
  obtain ⟨d, hd, hdc⟩ := hcl2
  have hlt := encode_digits_lt 5 (pack4 g) d hd
  rw [ascii85_chars_getD d hlt] at hdc
  omega

/-- No character of a raw Z85 stream is the newline character 10. -/
lemma rawZ_mem : ∀ (bytes : List Nat) (c : Nat), c ∈ Z85.rawZ bytes → c ≠ 10 := by
  intro bytes c hc
  simp only [Z85.rawZ, List.mem_flatten, List.mem_map] at hc
  obtain ⟨l, ⟨g, _, hg⟩, hcl⟩ := hc
  subst hg
  simp only [Z85.z85_encode_group] at hcl
  have hcl2 := List.mem_of_mem_take hcl
  simp only [List.mem_map] at hcl2
  obtain ⟨d, hd, hdc⟩ := hcl2
  have hlt := encode_digits_lt 5 (pack4 g) d hd
  rw [← hdc]
  exact z85_alphabet_ne_nl d hlt

/-- C4 amended: with `wrap_cols = N > 0` both encoders insert a newline
after every Nth output character (the spec wrap policy `spec_wrap`) and
hence end nonempty output with exactly one newline; but the always-ends-
with-a-newline part of the claim is wrong for wrapping disabled, and the
ASCII85 encoder carries a line cap.  Precisely: the ASCII85 encoder
matches the spec policy (including the final newline when wrap = 0 or the
column is nonzero) whenever wrap is at most 32768 and, for wrap = 0, the
raw stream fits the 32768-character line cap; the Z85 encoder matches the
spec policy for every wrap > 0, but with wrap = 0 it emits the raw stream
with NO final newline at all.  Raw streams of either codec never contain
the newline character, so the inserted line breaks are exactly the
newlines of the output. -/
theorem C4_amended : ∀ bytes : List Nat,
    (∀ wrap, wrap ≤ 32768 → (wrap = 0 → (Ascii85.rawA bytes).length ≤ 32768) →
      Ascii85.encode_ascii85 bytes wrap false false =
        some (spec_wrap wrap (Ascii85.rawA bytes))) ∧
    (∀ wrap, 0 < wrap → Z85.encode_z85 bytes wrap = spec_wrap wrap (Z85.rawZ bytes)) ∧
    Z85.encode_z85 bytes 0 = Z85.rawZ bytes ∧
    10 ∉ Ascii85.rawA bytes ∧ 10 ∉ Z85.rawZ bytes := by
  intro bytes
  refine ⟨fun wrap hw32 hnw => ?_, fun wrap hw => ?_, ?_, ?_, ?_⟩
  · exact encode_groups_spec (toGroups bytes) wrap 0 false false
      (fun h0 => ⟨hw32, h0⟩) (fun h0 => by rw [Nat.zero_add]; exact hnw h0)
  · show (Z85.encode_z85_loop wrap (toGroups bytes) 0).1 ++ _ = _
    rw [encode_z85_loop_emit]
    have hspec := z85_emit_spec (Z85.rawZ bytes) wrap 0 []
    rw [List.append_nil] at hspec
    show _ = spec_wrap_go wrap (Z85.rawZ bytes) 0
    rw [hspec]
    congr 1
    show (if 0 < wrap ∧ 0 < (Z85.z85_emit wrap (Z85.rawZ bytes) 0).2 then [10] else []) =
      spec_wrap_go wrap [] (Z85.z85_emit wrap (Z85.rawZ bytes) 0).2
    by_cases hc : 0 < (Z85.z85_emit wrap (Z85.rawZ bytes) 0).2
    · rw [if_pos ⟨hw, hc⟩]
      show _ = if wrap = 0 ∨ 0 < (Z85.z85_emit wrap (Z85.rawZ bytes) 0).2 then [10] else []
      rw [if_pos (Or.inr hc)]
    · rw [if_neg (fun hh => hc hh.2)]
      show _ = if wrap = 0 ∨ 0 < (Z85.z85_emit wrap (Z85.rawZ bytes) 0).2 then [10] else []
      rw [if_neg (by omega)]
  · show (Z85.encode_z85_loop 0 (toGroups bytes) 0).1 ++ _ = _
    rw [encode_z85_loop_emit, z85_emit_nowrap]
    simp
    rfl
  · intro hmem
    have := rawA_mem bytes 10 hmem
    omega
  · intro hmem
    exact rawZ_mem bytes 10 hmem rfl

/-- C4 witness: the ASCII85 part applied to the 4-byte input "Man " with
the default wrap 76, the Z85 part applied to a 3-byte input with wrap 3,
and the wrap-0 Z85 deviation applied to a 1-byte input. -/
theorem C4_witness :
    ((76 : Nat) ≤ 32768 ∧ ((76 : Nat) = 0 → (Ascii85.rawA [77, 97, 110, 32]).length ≤ 32768) ∧
      Ascii85.encode_ascii85 [77, 97, 110, 32] 76 false false =
        some (spec_wrap 76 (Ascii85.rawA [77, 97, 110, 32]))) ∧
    ((0 : Nat) < 3 ∧
      Z85.encode_z85 [77, 97, 110] 3 = spec_wrap 3 (Z85.rawZ [77, 97, 110])) ∧
    Z85.encode_z85 [65] 0 = Z85.rawZ [65] :=
  ⟨⟨by decide, by decide, (C4_amended [77, 97, 110, 32]).1 76 (by decide) (by decide)⟩,
   ⟨by decide, (C4_amended [77, 97, 110]).2.1 3 (by decide)⟩,
   (C4_amended [65]).2.2.1⟩

/-- C9 amended: at end of input the DNA decoder left-shifts a partial
accumulation to a full zero-padded byte and EMITS it (its output has one
byte per started group of 4 nucleotides - ceiling - and appending the
zero-valued symbols that would complete the group changes nothing), while
the binary decoder only warns and DISCARDS the partial byte (its output
has one byte per complete group of 8 bits - floor).  Both decoders return
success in either case (the modelled functions are total). -/
theorem C9_amended :
    (∀ mapping comp cs, (Dna.decode_dna mapping comp cs).length =
      (Dna.dnaCount mapping comp cs + 3) / 4) ∧
    (∀ cs, (Binary.decode_file cs).length = Binary.bitCount cs / 8) ∧
    (∀ cs, Dna.decode_dna Dna.atgc false
        (cs ++ List.replicate ((4 - Dna.dnaCount Dna.atgc false cs % 4) % 4) 65) =
      Dna.decode_dna Dna.atgc false cs) := by
  refine ⟨fun m comp cs => ?_, fun cs => ?_, fun cs => ?_⟩
  · have h := dna_len m comp cs 0 0 (by omega)
    simpa [Dna.decode_dna] using h
  · have h := bin_len cs 0 0 (by omega)
    simpa [Binary.decode_file] using h
  · have h := dna_pad cs 0 0 (by omega)
    simpa [Dna.decode_dna] using h

/-- C10: leet.c `decode_leetspeak` stores at most the first 1023 input
bytes in its fixed 1024-byte buffer and silently ignores the rest: for
every table and every input, the decode output equals the decode output
of the input's first 1023 bytes (no error or warning is produced for the
dropped remainder - the function has no failure path). -/
theorem C10_buffer_truncation :
    ∀ table input, Leet.decode_leetspeak table input =
      Leet.decode_leetspeak table (input.take 1023) := by
  intro table input
  simp [Leet.decode_leetspeak, List.take_take]
